import Mathlib

/-
  Verification development for the Lumiverse pack conversion and settings
  migration engine (scripts/convertPacks.js and the extension module).

  The JavaScript source is shallowly embedded: JS strings become `List Char`,
  absent/null/undefined values become `Option`, the specific regular
  expressions used by the source are modelled as executable matching
  functions with JS leftmost-match semantics, and fallible conversion
  returns `Except`.
-/

namespace Lumiverse

abbrev Chars := List Char

/-- Whitespace set used by JS `trim` and by the whitespace class of the
patterns modelled here (space, tab, LF, CR, VT, FF). -/
def isWS (c : Char) : Bool :=
  c = ' ' || c = '\t' || c = '\n' || c = '\r' || c = Char.ofNat 11 || c = Char.ofNat 12

/-- JS `String.prototype.trim`. -/
def jsTrim (s : Chars) : Chars :=
  ((s.dropWhile isWS).reverse.dropWhile isWS).reverse

/-- JS truthiness of a possibly-missing string: `undefined`, `null` and the
empty string are falsy. -/
def truthyChars : Option Chars → Bool
  | some s => s ≠ []
  | none => false

/-- JS `a || b` over possibly-missing strings. -/
def jsOr (a b : Option Chars) : Option Chars :=
  if truthyChars a then a else b

def rbChar : Char := ']'

/-- One attempt of the lazy group in `\((.+?)\)` right after a `(`:
`acc` holds the (reversed) characters consumed by `.+?` so far, which is
non-empty by construction.  The match closes at the first `)`; a newline
aborts the attempt because `.` does not match it. -/
def scanCapture (acc : Chars) : Chars → Option Chars
  | [] => none
  | c :: cs =>
    if c = ')' then some acc.reverse
    else if c = '\n' then none
    else scanCapture (c :: acc) cs

/-- Attempt `(.+?)\)` on the text following a `(`: `.+?` must consume at
least one (non-newline) character before the closing `)`. -/
def parenAttempt : Chars → Option Chars
  | [] => none
  | c :: cs => if c = '\n' then none else scanCapture [c] cs

/-- The capture of the leftmost match of `/\((.+?)\)/`, JS semantics:
match attempts start at each position from the left; a failed attempt at
one `(` falls through to later positions. -/
def firstParen : Chars → Option Chars
  | [] => none
  | c :: cs =>
    if c = '(' then
      match parenAttempt cs with
      | some cap => some cap
      | none => firstParen cs
    else firstParen cs

/-- Does the text start with `\s*\(` (whitespace run, then `(`)? -/
def wsParen : Chars → Bool
  | [] => false
  | c :: cs => if c = '(' then true else if isWS c then wsParen cs else false

/-- Lazy scan for `^(.+?)\s*\(`: grow the capture one character at a time
(never across a newline) until the rest of the text starts with `\s*\(`. -/
def catScan (acc : Chars) : Chars → Option Chars
  | [] => none
  | c :: cs =>
    if wsParen (c :: cs) then some acc.reverse
    else if c = '\n' then none
    else catScan (c :: acc) cs

/-- The capture of `/^(.+?)\s*\(/` (anchored, lazy): the shortest non-empty
newline-free leading run that is followed by optional whitespace and a
literal `(`. -/
def categoryHead : Chars → Option Chars
  | [] => none
  | c :: cs => if c = '\n' then none else catScan [c] cs

/-- The three Loom category labels recognised by the classifier. -/
def loomCats : List Chars :=
  ["Loom Utilities".data, "Retrofits".data, "Narrative Style".data]

/-- Capture of `(.+)\)\s*$` (greedy, anchored at the end): exactly one
candidate split exists, at the last non-whitespace character, which must be
`)`; the greedy capture before it must be non-empty and newline-free. -/
def loomCapture (rest : Chars) : Option Chars :=
  match rest.reverse.dropWhile isWS with
  | [] => none
  | c :: revCap =>
    if c = ')' then
      let cap := revCap.reverse
      if cap ≠ [] ∧ '\n' ∉ cap then some cap else none
    else none

/-- After one of the Loom literals: `\s*\(` then the greedy tail. -/
def loomAfterLit (r : Chars) : Option Chars :=
  match r.dropWhile isWS with
  | '(' :: rest => loomCapture rest
  | _ => none

/-- Capture of `/^(?:Loom Utilities|Retrofits|Narrative Style)\s*\((.+)\)\s*$/`. -/
def loomNameMatch (c : Chars) : Option Chars :=
  if ("Loom Utilities".data).isPrefixOf c then loomAfterLit (c.drop 14)
  else if ("Retrofits".data).isPrefixOf c then loomAfterLit (c.drop 9)
  else if ("Narrative Style".data).isPrefixOf c then loomAfterLit (c.drop 15)
  else none

/-- Split a text at its first `]`: returns the (`]`-free) run before it and
the remainder after it. -/
def takeUntilRB : Chars → Option (Chars × Chars)
  | [] => none
  | c :: cs =>
    if c = rbChar then some ([], cs)
    else
      match takeUntilRB cs with
      | some (cap, rest) => some (c :: cap, rest)
      | none => none

/-- One positional attempt of `opn` followed by `([^\]]+)\]`: the greedy
class run extends to the first `]`, and must be non-empty. -/
def tagAttempt (opn s : Chars) : Option (Chars × Chars) :=
  if opn.isPrefixOf s then
    match takeUntilRB (s.drop opn.length) with
    | some (cap, suf) => if cap = [] then none else some (cap, suf)
    | none => none
  else none

/-- Leftmost match of `opn([^\]]+)\]` in JS semantics, returning
(text before the match, capture, text after the match). -/
def findTag (opn : Chars) : Chars → Option (Chars × Chars × Chars)
  | [] => none
  | c :: cs =>
    match tagAttempt opn (c :: cs) with
    | some (cap, suf) => some ([], cap, suf)
    | none => (findTag opn cs).map fun x => (c :: x.1, x.2.1, x.2.2)

/-- JS `String.prototype.replace` with a plain-string pattern and empty
replacement: remove the first occurrence of `needle`, if any. -/
def removeFirst (needle : Chars) : Chars → Chars
  | [] => []
  | c :: cs =>
    if needle.isPrefixOf (c :: cs) then (c :: cs).drop needle.length
    else c :: removeFirst needle cs

def imgOpen : Chars := "[lumia_img=".data
def authOpen : Chars := "[lumia_author=".data

/-- JS `\w`: ASCII letters, digits, underscore. -/
def isWordChar (c : Char) : Bool := c.isAlphanum || c = '_'

/-- Capture of the lazy group in `([\s\S]*?)` terminated by two closing
braces: the characters before the first brace pair (may be empty). -/
def untilDoubleBrace : Chars → Option Chars
  | [] => none
  | [_] => none
  | c :: c2 :: cs =>
    if c = Char.ofNat 125 ∧ c2 = Char.ofNat 125 then some []
    else (untilDoubleBrace (c2 :: cs)).map (c :: ·)

/-- One positional attempt of `opn` `\w+` `::` and the lazy tail above. -/
def varAttempt (opn s : Chars) : Option Chars :=
  if opn.isPrefixOf s then
    let r := s.drop opn.length
    if r.takeWhile isWordChar = [] then none
    else
      let r2 := r.dropWhile isWordChar
      if ("::".data).isPrefixOf r2 then untilDoubleBrace (r2.drop 2)
      else none
  else none

/-- Leftmost match of the legacy set-variable markers. -/
def findVar (opn : Chars) : Chars → Option Chars
  | [] => none
  | c :: cs =>
    match varAttempt opn (c :: cs) with
    | some cap => some cap
    | none => findVar opn cs

/-- Opening literal of the legacy behavior marker
(two opening braces, then `setvar::lumia_behavior_`). -/
def setvarOpen : Chars :=
  [Char.ofNat 123, Char.ofNat 123] ++ "setvar::lumia_behavior_".data

/-- Opening literal of the legacy personality marker
(two opening braces, then `setglobalvar::lumia_personality_`). -/
def setglobalOpen : Chars :=
  [Char.ofNat 123, Char.ofNat 123] ++ "setglobalvar::lumia_personality_".data

/-! ## Data model -/

/-- A raw knowledge entry (World Book entry).  `none` models an absent or
non-string field. -/
structure Entry where
  content : Option Chars
  comment : Option Chars
  outletName : Option Chars
deriving DecidableEq

/-- Canonical (v2) Lumia item as produced by the converter script. -/
structure LumiaItem where
  lumiaName : Option Chars
  avatarUrl : Option Chars
  lumiaPersonality : Option Chars
  lumiaBehavior : Option Chars
  lumiaDefinition : Option Chars
  authorName : Option Chars
  genderIdentity : Nat
  version : Nat
deriving DecidableEq

/-- Canonical (v2) Loom item. -/
structure LoomItem where
  loomName : Option Chars
  loomContent : Option Chars
  loomCategory : Option Chars
  authorName : Option Chars
  version : Nat
deriving DecidableEq

/-- Result of `extractMetadata`. -/
structure Meta where
  image : Option Chars
  author : Option Chars
  content : Chars
deriving DecidableEq

/-- Model of `extractMetadata` of the converter script: match `\[lumia_img=([^\]]+)\]`
on the input, remove the first occurrence of the matched text and trim;
then match `\[lumia_author=([^\]]+)\]` on the ORIGINAL input and remove the
first occurrence of that matched text from the current cleaned text. -/
def extractMetadata (content : Chars) : Meta :=
  let p :=
    match findTag imgOpen content with
    | some (_, cap, _) =>
      (some (jsTrim cap), jsTrim (removeFirst (imgOpen ++ cap ++ [rbChar]) content))
    | none => (none, content)
  match findTag authOpen content with
  | some (_, cap2, _) =>
    { image := p.1, author := some (jsTrim cap2),
      content := jsTrim (removeFirst (authOpen ++ cap2 ++ [rbChar]) p.2) }
  | none => { image := p.1, author := none, content := p.2 }

/-- Skip guard of the entry loop: proceed only when `entry.content` is a
non-empty string (`!entry.content` also skips the empty string). -/
def contentValid (e : Entry) : Option Chars :=
  match e.content with
  | some s => if s = [] then none else some s
  | none => none

inductive FragType where
  | definition
  | behavior
  | personality
deriving DecidableEq

def descOutlet : Chars := "Lumia_Description".data
def behavOutlet : Chars := "Lumia_Behavior".data
def persOutlet : Chars := "Lumia_Personality".data

def lowerc (s : Chars) : Chars := s.map Char.toLower

/-- JS `String.prototype.includes`: substring containment. -/
def jsIncludes (needle : Chars) : Chars → Bool
  | [] => needle.isPrefixOf ([] : Chars)
  | c :: cs => needle.isPrefixOf (c :: cs) || jsIncludes needle cs

/-- The fallback clause `categoryMatch && categoryMatch[1].trim().toLowerCase() === 'lumia'`. -/
def categoryIsLumia (comment : Chars) : Bool :=
  match categoryHead comment with
  | some rawCat => lowerc (jsTrim rawCat) = "lumia".data
  | none => false

/-- Entry type determination of the converter script (the interleaved
outlet/keyword checks, then the category fallback, then the image-tag
fallback). -/
def determineType (outlet : Option Chars) (comment : Chars) (content : Chars) :
    Option FragType :=
  let cl := lowerc comment
  if outlet = some descOutlet ∨ jsIncludes ("definition".data) cl = true then
    some FragType.definition
  else if outlet = some behavOutlet ∨ jsIncludes ("behavior".data) cl = true then
    some FragType.behavior
  else if outlet = some persOutlet ∨ jsIncludes ("personality".data) cl = true then
    some FragType.personality
  else if categoryIsLumia comment = true then some FragType.definition
  else if jsIncludes imgOpen content = true then some FragType.definition
  else none

/-- Fresh in-progress Lumia item inserted into the map under `name`. -/
def freshLumia (name : Chars) : LumiaItem :=
  { lumiaName := some name, avatarUrl := none, lumiaPersonality := none,
    lumiaBehavior := none, lumiaDefinition := none, authorName := none,
    genderIdentity := 0, version := 1 }

/-- Application of a typed fragment to the in-progress item (the typed
branches of the entry loop; an undetermined type leaves the item as
created). -/
def applyFrag (content : Chars) : Option FragType → LumiaItem → LumiaItem
  | some FragType.definition, it =>
    let m := extractMetadata content
    { it with
      lumiaDefinition := some m.content,
      avatarUrl := if truthyChars m.image then m.image else it.avatarUrl,
      authorName := if truthyChars m.author then m.author else it.authorName }
  | some FragType.behavior, it => { it with lumiaBehavior := some content }
  | some FragType.personality, it =>
    let it1 :=
      match findVar setvarOpen content with
      | some b =>
        if truthyChars it.lumiaBehavior then it
        else { it with lumiaBehavior := some (jsTrim b) }
      | none => it
    match findVar setglobalOpen content with
    | some p => { it1 with lumiaPersonality := some (jsTrim p) }
    | none => { it1 with lumiaPersonality := some content }
  | none, it => it

/-- The insertion-ordered name map of the aggregator: fetch-or-create the
item keyed by `name`, then mutate it in place. -/
def applyLumia (name : Chars) (f : LumiaItem → LumiaItem) :
    List LumiaItem → List LumiaItem
  | [] => [f (freshLumia name)]
  | x :: xs =>
    if x.lumiaName = some name then f x :: xs else x :: applyLumia name f xs

/-- One iteration of the entry loop of `processWorldBook` (converter
script): Loom classification first, then Lumia name extraction, type
determination and aggregation. -/
def processEntry (st : List LumiaItem × List LoomItem) (e : Entry) :
    List LumiaItem × List LoomItem :=
  match contentValid e with
  | none => st
  | some content =>
    let comment := jsTrim (e.comment.getD [])
    match categoryHead comment with
    | some rawCat =>
      if jsTrim rawCat ∈ loomCats then
        match loomNameMatch comment with
        | some rawLoom =>
          (st.1, st.2 ++ [{ loomName := some (jsTrim rawLoom),
                            loomContent := some (jsTrim content),
                            loomCategory := some (jsTrim rawCat),
                            authorName := none, version := 1 }])
        | none => st
      else
        match firstParen comment with
        | some rawName =>
          (applyLumia (jsTrim rawName)
            (applyFrag content (determineType e.outletName comment content)) st.1,
           st.2)
        | none => st
    | none =>
      match firstParen comment with
      | some rawName =>
        (applyLumia (jsTrim rawName)
          (applyFrag content (determineType e.outletName comment content)) st.1,
         st.2)
      | none => st

structure WBResult where
  lumiaItems : List LumiaItem
  loomItems : List LoomItem
deriving DecidableEq

/-- The entry loop of `processWorldBook` over an explicit entry sequence. -/
def processEntries (es : List Entry) : WBResult :=
  let st := es.foldl processEntry ([], [])
  ⟨st.1, st.2⟩

/-- An item of the older internal pack format (`items` array).  Every field
may be absent. -/
structure OldItem where
  lumiaDefName : Option Chars
  lumiaName : Option Chars
  lumiaDef : Option Chars
  lumiaDefinition : Option Chars
  lumia_personality : Option Chars
  lumiaPersonality : Option Chars
  lumia_behavior : Option Chars
  lumiaBehavior : Option Chars
  lumia_img : Option Chars
  avatarUrl : Option Chars
  genderIdentity : Option Nat
  defAuthor : Option Chars
  authorName : Option Chars
  loomName : Option Chars
  loomContent : Option Chars
  loomCategory : Option Chars
deriving DecidableEq

/-- Model of `convertLumiaItem`: field renaming with legacy-name fallbacks
(`a || b` chains, nullish-coalescing default for the gender enum). -/
def convertLumiaItem (it : OldItem) : LumiaItem :=
  { lumiaName := jsOr it.lumiaDefName it.lumiaName,
    lumiaDefinition := jsOr it.lumiaDef (jsOr it.lumiaDefinition none),
    lumiaPersonality := jsOr it.lumia_personality (jsOr it.lumiaPersonality none),
    lumiaBehavior := jsOr it.lumia_behavior (jsOr it.lumiaBehavior none),
    avatarUrl := jsOr it.lumia_img (jsOr it.avatarUrl none),
    genderIdentity := it.genderIdentity.getD 0,
    authorName := jsOr it.defAuthor (jsOr it.authorName none),
    version := 1 }

/-- Model of `convertLoomItem`: direct field copy. -/
def convertLoomItem (it : OldItem) : LoomItem :=
  { loomName := it.loomName, loomContent := it.loomContent,
    loomCategory := it.loomCategory,
    authorName := jsOr it.authorName none, version := 1 }

/-- The fields of an object payload that the shape checks and the two
object branches of `convertPack` read or produce. -/
structure ObjData where
  lumiaItems : Option (List LumiaItem)
  loomItems : Option (List LoomItem)
  entries : Option (List Entry)
  items : Option (List OldItem)
  name : Option Chars
  packName : Option Chars
  author : Option Chars
  packAuthor : Option Chars
  coverUrl : Option Chars
  packExtras : Option (List Chars)
  version : Option Nat
deriving DecidableEq

/-- A payload: either a bare array of entries or an object. -/
inductive InputData where
  | arr (entries : List Entry)
  | obj (o : ObjData)
deriving DecidableEq

/-- Model of `processWorldBook` of the converter script: accept a bare array or an
object with an `entries` mapping (values in order), otherwise produce the
empty result. -/
def processWorldBook : InputData → WBResult
  | .arr es => processEntries es
  | .obj o =>
    match o.entries with
    | some es => processEntries es
    | none => ⟨[], []⟩

/-- Shape check 1: the payload already exposes `lumiaItems` or `loomItems`
(a present array field is truthy in JS, even when empty). -/
def hasCanonicalShape : InputData → Bool
  | .arr _ => false
  | .obj o => o.lumiaItems.isSome || o.loomItems.isSome

/-- Shape check 2: World Book format (an `entries` mapping, or a bare
array payload). -/
def hasWorldBookShape : InputData → Bool
  | .arr _ => true
  | .obj o => o.entries.isSome

/-- Shape check 3: older internal pack format (an `items` array). -/
def hasItemsShape : InputData → Bool
  | .arr _ => false
  | .obj o => o.items.isSome

/-- Selection `a || b || c` for the output pack name. -/
def jsSel3 (a b : Option Chars) (c : Chars) : Chars :=
  if truthyChars a then a.getD []
  else if truthyChars b then b.getD []
  else c

/-- The pack object built by the World Book branch of `convertPack`. -/
def wbOutput (d : InputData) (sourceName : Chars) : InputData :=
  let r := processWorldBook d
  .obj { lumiaItems := some r.lumiaItems, loomItems := some r.loomItems,
         entries := none, items := none, name := none,
         packName := some sourceName, author := none, packAuthor := none,
         coverUrl := none, packExtras := some [], version := some 1 }

/-- The pack object built by the legacy-items branch of `convertPack`:
items with a Lumia-name-like field become Lumia items, remaining items with
a Loom category become Loom items. -/
def legacyOutput (o : ObjData) (sourceName : Chars) (its : List OldItem) :
    InputData :=
  let isLum := fun (it : OldItem) =>
    truthyChars it.lumiaDefName || truthyChars it.lumiaName
  .obj { lumiaItems := some ((its.filter isLum).map convertLumiaItem),
         loomItems := some ((its.filter fun it =>
             !isLum it && truthyChars it.loomCategory).map convertLoomItem),
         entries := none, items := none, name := none,
         packName := some (jsSel3 o.name o.packName sourceName),
         author := none,
         packAuthor := jsOr o.author (jsOr o.packAuthor none),
         coverUrl := jsOr o.coverUrl none,
         packExtras := some (o.packExtras.getD []),
         version := some 1 }

def unknownFormatMsg : Chars := "Unknown input format".data

/-- Model of `convertPack`: canonical passthrough, else World Book processing, else
legacy `items` conversion, else the unsupported-format error. -/
def convertPack (d : InputData) (sourceName : Chars) : Except Chars InputData :=
  if hasCanonicalShape d then .ok d
  else if hasWorldBookShape d then .ok (wbOutput d sourceName)
  else
    match d with
    | .arr _ => .error unknownFormatMsg
    | .obj o =>
      match o.items with
      | some its => .ok (legacyOutput o sourceName its)
      | none => .error unknownFormatMsg

/-! ## Extension module (settings and migration) -/

/-- A v1 library item as stored in the legacy flat list and produced by the
extension's `processWorldBook`. -/
structure LegacyItem where
  lumiaDefName : Option Chars
  lumia_img : Option Chars
  lumia_personality : Option Chars
  lumia_behavior : Option Chars
  lumiaDef : Option Chars
  defAuthor : Option Chars
deriving DecidableEq

/-- Scan of the lazy `(.+?)\]` tail after its first consumed character:
stop at the next `]`, abort on a newline (the dot does not match it). -/
def takeUntilRB2Scan (acc : Chars) : Chars → Option (Chars × Chars)
  | [] => none
  | c :: cs =>
    if c = rbChar then some (acc.reverse, cs)
    else if c = '\n' then none
    else takeUntilRB2Scan (c :: acc) cs

/-- The extension's lazy `(.+?)\]` after the opening literal: at least one
(non-newline) character is consumed — a leading `]` is consumed by the dot,
so `]x]` captures `]x` — and the capture closes at the next `]`. -/
def takeUntilRB2 : Chars → Option (Chars × Chars)
  | [] => none
  | c :: cs => if c = '\n' then none else takeUntilRB2Scan [c] cs

/-- One positional attempt of `opn` followed by `(.+?)\]`. -/
def tagAttempt2 (opn s : Chars) : Option (Chars × Chars) :=
  if opn.isPrefixOf s then takeUntilRB2 (s.drop opn.length) else none

/-- Leftmost match of `opn(.+?)\]` in JS semantics. -/
def findTag2 (opn : Chars) : Chars → Option (Chars × Chars × Chars)
  | [] => none
  | c :: cs =>
    match tagAttempt2 opn (c :: cs) with
    | some (cap, suf) => some ([], cap, suf)
    | none => (findTag2 opn cs).map fun x => (c :: x.1, x.2.1, x.2.2)

/-- The extension's `extractMetadata` (lazy capture variant, same
match-then-replace structure as the script's). -/
def extractMetadata2 (content : Chars) : Meta :=
  let p :=
    match findTag2 imgOpen content with
    | some (_, cap, _) =>
      (some (jsTrim cap), jsTrim (removeFirst (imgOpen ++ cap ++ [rbChar]) content))
    | none => (none, content)
  match findTag2 authOpen content with
  | some (_, cap2, _) =>
    { image := p.1, author := some (jsTrim cap2),
      content := jsTrim (removeFirst (authOpen ++ cap2 ++ [rbChar]) p.2) }
  | none => { image := p.1, author := none, content := p.2 }

/-- Entry type determination of the extension module (outlet/keyword
checks only, no category or image-tag fallback). -/
def determineType2 (outlet : Option Chars) (comment : Chars) : Option FragType :=
  let cl := lowerc comment
  if outlet = some descOutlet ∨ jsIncludes ("definition".data) cl = true then
    some FragType.definition
  else if outlet = some behavOutlet ∨ jsIncludes ("behavior".data) cl = true then
    some FragType.behavior
  else if outlet = some persOutlet ∨ jsIncludes ("personality".data) cl = true then
    some FragType.personality
  else none

/-- Fresh v1 in-progress item keyed by `name`. -/
def freshLegacy (name : Chars) : LegacyItem :=
  { lumiaDefName := some name, lumia_img := none, lumia_personality := none,
    lumia_behavior := none, lumiaDef := none, defAuthor := none }

/-- Typed-fragment application for the v1 item shape. -/
def applyFrag2 (content : Chars) : Option FragType → LegacyItem → LegacyItem
  | some FragType.definition, it =>
    let m := extractMetadata2 content
    { it with
      lumiaDef := some m.content,
      lumia_img := if truthyChars m.image then m.image else it.lumia_img,
      defAuthor := if truthyChars m.author then m.author else it.defAuthor }
  | some FragType.behavior, it => { it with lumia_behavior := some content }
  | some FragType.personality, it =>
    let it1 :=
      match findVar setvarOpen content with
      | some b =>
        if truthyChars it.lumia_behavior then it
        else { it with lumia_behavior := some (jsTrim b) }
      | none => it
    match findVar setglobalOpen content with
    | some p => { it1 with lumia_personality := some (jsTrim p) }
    | none => { it1 with lumia_personality := some content }
  | none, it => it

/-- Insertion-ordered name map for the v1 item shape. -/
def applyLegacy (name : Chars) (f : LegacyItem → LegacyItem) :
    List LegacyItem → List LegacyItem
  | [] => [f (freshLegacy name)]
  | x :: xs =>
    if x.lumiaDefName = some name then f x :: xs else x :: applyLegacy name f xs

/-- One iteration of the extension's entry loop (no Loom handling). -/
def processEntry2 (st : List LegacyItem) (e : Entry) : List LegacyItem :=
  match contentValid e with
  | none => st
  | some content =>
    let comment := jsTrim (e.comment.getD [])
    match firstParen comment with
    | none => st
    | some rawName =>
      applyLegacy (jsTrim rawName)
        (applyFrag2 content (determineType2 e.outletName comment)) st

/-- The extension's `processWorldBook`: flat ordered list of v1 items. -/
def processWorldBook2 : InputData → List LegacyItem
  | .arr es => es.foldl processEntry2 []
  | .obj o =>
    match o.entries with
    | some es => es.foldl processEntry2 []
    | none => []

/-- The single definition selection: a legacy numeric index, a pack/item
reference, or null. -/
inductive SelDef where
  | num (i : Int)
  | ref (packName itemName : Chars)
  | nul
deriving DecidableEq

/-- An element of a multi-selection list. -/
inductive SelElem where
  | num (i : Int)
  | ref (packName itemName : Chars)
deriving DecidableEq

/-- A stored pack of the extension's settings. -/
structure Pack where
  name : Chars
  items : List LegacyItem
  url : Chars
deriving DecidableEq

/-- The extension's settings state.  `none` on the multi-selection lists
models a non-array value; `none` on the legacy keys models their absence. -/
structure Settings where
  packs : List (Chars × Pack)
  selectedDefinition : SelDef
  selectedBehaviors : Option (List SelElem)
  selectedPersonalities : Option (List SelElem)
  lumiaOOCInterval : Option Int
  lumiaLibrary : Option (List LegacyItem)
  worldBookData : Option InputData
  worldBookUrl : Option Chars
deriving DecidableEq

def legacyLabel : Chars := "Default (Legacy)".data

/-- Lookup `items[idx]?.lumiaDefName`: `none` when the index is out of range or
the item has no recorded name. -/
def getNameAt (items : List LegacyItem) (i : Int) : Option Chars :=
  if i < 0 then none
  else
    match items.get? i.toNat with
    | some it => it.lumiaDefName
    | none => none

/-- Dictionary assignment `packs[k] = v` (insertion order preserved). -/
def setPack (ps : List (Chars × Pack)) (k : Chars) (v : Pack) :
    List (Chars × Pack) :=
  if ps.any (·.1 = k) then ps.map (fun p => if p.1 = k then (k, v) else p)
  else ps ++ [(k, v)]

/-- Multi-selection migration: when the stored value is an array whose
first element is a number, map every element through the index-to-name
rule and drop unresolved ones; otherwise reset to the empty list. -/
def migrateMulti (items : List LegacyItem) : Option (List SelElem) → List SelElem
  | some (SelElem.num i :: rest) =>
    (SelElem.num i :: rest).filterMap fun x =>
      match x with
      | SelElem.num j =>
        match getNameAt items j with
        | some n => if n = [] then none else some (SelElem.ref legacyLabel n)
        | none => none
      | SelElem.ref _ _ => none
  | _ => []

/-- Single-selection migration: only a numeric value is translated. -/
def migrateSelDef (items : List LegacyItem) : SelDef → SelDef
  | SelDef.num i =>
    match getNameAt items i with
    | some n => if n = [] then SelDef.nul else SelDef.ref legacyLabel n
    | none => SelDef.nul
  | other => other

/-- The trailing default-ensuring assignments of `migrateSettings`. -/
def ensureDefaults (s : Settings) : Settings :=
  { s with selectedBehaviors := some (s.selectedBehaviors.getD []),
           selectedPersonalities := some (s.selectedPersonalities.getD []) }

/-- The item list the migration works over: the flat legacy list, or, when
that is empty and a raw payload is recorded, the payload re-processed. -/
def derivedItems (s : Settings) : List LegacyItem :=
  let legacyItems := s.lumiaLibrary.getD []
  if legacyItems = [] then
    match s.worldBookData with
    | some wb => processWorldBook2 wb
    | none => legacyItems
  else legacyItems

/-- Model of `migrateSettings` of the extension module.  Returns the new settings
and the `migrated` flag. -/
def migrateSettings (s : Settings) : Settings × Bool :=
  if (s.lumiaLibrary.isSome ∨ s.worldBookData.isSome) ∧ s.packs = [] then
    let items := derivedItems s
    if items = [] then (ensureDefaults s, false)
    else
      let url :=
        match s.worldBookUrl with
        | some u => if u = [] then "Legacy".data else u
        | none => "Legacy".data
      let pack : Pack := { name := legacyLabel, items := items, url := url }
      (ensureDefaults
        { s with
          packs := setPack s.packs legacyLabel pack,
          selectedDefinition := migrateSelDef items s.selectedDefinition,
          selectedBehaviors := some (migrateMulti items s.selectedBehaviors),
          selectedPersonalities := some (migrateMulti items s.selectedPersonalities),
          lumiaLibrary := none, worldBookData := none, worldBookUrl := none },
       true)
  else (ensureDefaults s, false)

/-! ## Derived notions used by the statements -/

/-- Does the trimmed comment match a Loom category heading (a leading
category capture that trims to one of the three labels)? -/
def matchesLoomHeading (comment : Chars) : Bool :=
  match categoryHead comment with
  | some rawCat => jsTrim rawCat ∈ loomCats
  | none => false

/-- The name under which an entry contributes to the Lumia map, if any:
mirrors the skip conditions of the entry loop. -/
def lumiaCandidateName (e : Entry) : Option Chars :=
  match contentValid e with
  | none => none
  | some _ =>
    let comment := jsTrim (e.comment.getD [])
    match categoryHead comment with
    | some rawCat =>
      if jsTrim rawCat ∈ loomCats then none
      else (firstParen comment).map jsTrim
    | none => (firstParen comment).map jsTrim

/-- Append a key to an accumulator unless already present. -/
def insertSeen (acc : List (Option Chars)) (n : Option Chars) :
    List (Option Chars) :=
  if n ∈ acc then acc else acc ++ [n]

/-- First-seen-order deduplication of a list of names. -/
def firstSeen (l : List Chars) : List Chars :=
  l.foldl (fun acc n => if n ∈ acc then acc else acc ++ [n]) []

/-! ## Lemmas: the aggregator map keeps one item per name in first-seen
order -/

theorem applyFrag_name (c : Chars) (t : Option FragType) (it : LumiaItem) :
    (applyFrag c t it).lumiaName = it.lumiaName := by
  cases t with
  | none => rfl
  | some ft =>
    cases ft with
    | definition => rfl
    | behavior => rfl
    | personality =>
      simp only [applyFrag]
      cases findVar setvarOpen c with
      | none => cases findVar setglobalOpen c <;> rfl
      | some b =>
        cases findVar setglobalOpen c <;>
          simp only [] <;> split <;> rfl

theorem applyLumia_names (name : Chars) (f : LumiaItem → LumiaItem)
    (hf : ∀ it, (f it).lumiaName = it.lumiaName) (xs : List LumiaItem) :
    (applyLumia name f xs).map (·.lumiaName)
      = insertSeen (xs.map (·.lumiaName)) (some name) := by
  induction xs with
  | nil => simp [applyLumia, insertSeen, hf, freshLumia]
  | cons x xs ih =>
    simp only [applyLumia]
    by_cases hx : x.lumiaName = some name
    · simp [hx, insertSeen, hf, List.mem_cons]
    · simp only [if_neg hx, List.map_cons, ih, insertSeen, List.mem_cons]
      by_cases hmem : some name ∈ xs.map (·.lumiaName)
      · simp [hmem, hx, Ne.symm hx]
      · have hne : ¬(some name = x.lumiaName) := fun h => hx h.symm
        simp [hmem, hne]

theorem processEntry_fst_names (st : List LumiaItem × List LoomItem) (e : Entry) :
    (processEntry st e).1.map (·.lumiaName)
      = (match lumiaCandidateName e with
         | some n => insertSeen (st.1.map (·.lumiaName)) (some n)
         | none => st.1.map (·.lumiaName)) := by
  simp only [processEntry, lumiaCandidateName]
  cases contentValid e with
  | none => rfl
  | some content =>
    simp only []
    cases categoryHead (jsTrim (e.comment.getD [])) with
    | none =>
      cases hp : firstParen (jsTrim (e.comment.getD [])) with
      | none => simp [hp]
      | some rawName =>
        simp [hp, applyLumia_names _ _ (applyFrag_name content _)]
    | some rawCat =>
      simp only []
      by_cases hc : jsTrim rawCat ∈ loomCats
      · simp only [if_pos hc]
        cases loomNameMatch (jsTrim (e.comment.getD [])) <;> rfl
      · simp only [if_neg hc]
        cases hp : firstParen (jsTrim (e.comment.getD [])) with
        | none => simp [hp]
        | some rawName =>
          simp [hp, applyLumia_names _ _ (applyFrag_name content _)]

theorem fold_names (es : List Entry) (st : List LumiaItem × List LoomItem) :
    ((es.foldl processEntry st).1.map (·.lumiaName))
      = (es.filterMap lumiaCandidateName).foldl
          (fun acc n => insertSeen acc (some n)) (st.1.map (·.lumiaName)) := by
  induction es generalizing st with
  | nil => rfl
  | cons e es ih =>
    simp only [List.foldl_cons, List.filterMap_cons]
    have h := processEntry_fst_names st e
    cases hc : lumiaCandidateName e with
    | none =>
      rw [hc] at h
      rw [ih, h]
    | some n =>
      rw [hc] at h
      simp only [List.foldl_cons]
      rw [ih, h]

theorem foldl_insert_map_some (l : List Chars) (acc : List Chars) :
    (l.foldl (fun acc n => insertSeen acc (some n)) (acc.map some))
      = (l.foldl (fun a n => if n ∈ a then a else a ++ [n]) acc).map some := by
  induction l generalizing acc with
  | nil => rfl
  | cons n l ih =>
    simp only [List.foldl_cons]
    by_cases h : n ∈ acc
    · have hm : some n ∈ acc.map some := List.mem_map_of_mem _ h
      have h1 : insertSeen (acc.map some) (some n) = acc.map some := by
        simp [insertSeen, hm]
      rw [h1, if_pos h, ih]
    · have hm : some n ∉ acc.map some := by
        intro hmem
        rcases List.mem_map.1 hmem with ⟨x, hx, he⟩
        exact h (Option.some.inj he ▸ hx)
      have h1 : insertSeen (acc.map some) (some n) = (acc ++ [n]).map some := by
        simp [insertSeen, hm]
      rw [h1, if_neg h, ih]

theorem foldl_insert_nodup (l : List Chars) (acc : List Chars)
    (h : acc.Nodup) :
    (l.foldl (fun a n => if n ∈ a then a else a ++ [n]) acc).Nodup := by
  induction l generalizing acc with
  | nil => exact h
  | cons n l ih =>
    simp only [List.foldl_cons]
    by_cases hn : n ∈ acc
    · simpa [hn] using ih acc h
    · have : (acc ++ [n]).Nodup := by
        simp [List.nodup_append, h, hn]
      simpa [hn] using ih (acc ++ [n]) this

/-- Claim C5: within one assembly call over any entry sequence, the output
Lumia sequence holds at most one item per name — the sequence of item names
is duplicate-free — and the items appear in first-seen order of the names
contributed by the entries. -/
theorem C5_lumia_names_unique_first_seen (es : List Entry) :
    ((processEntries es).lumiaItems.map (·.lumiaName))
      = (firstSeen (es.filterMap lumiaCandidateName)).map some
    ∧ ((processEntries es).lumiaItems.map (·.lumiaName)).Nodup := by
  have hA : ((processEntries es).lumiaItems.map (·.lumiaName))
      = (firstSeen (es.filterMap lumiaCandidateName)).map some := by
    have h2 := fold_names es ([], [])
    have h3 := foldl_insert_map_some (es.filterMap lumiaCandidateName) []
    simpa [processEntries, firstSeen] using h2.trans h3
  refine ⟨hA, ?_⟩
  rw [hA]
  exact (foldl_insert_nodup _ [] List.nodup_nil).map (Option.some_injective _)

/-- An entry whose trimmed comment has no parenthesized name and no Loom
category heading leaves the loop state untouched. -/
theorem processEntry_skip (st : List LumiaItem × List LoomItem) (e : Entry)
    (hname : firstParen (jsTrim (e.comment.getD [])) = none)
    (hcat : matchesLoomHeading (jsTrim (e.comment.getD [])) = false) :
    processEntry st e = st := by
  simp only [processEntry]
  cases contentValid e with
  | none => rfl
  | some content =>
    simp only [matchesLoomHeading] at hcat
    cases hch : categoryHead (jsTrim (e.comment.getD [])) with
    | none => simp [hname]
    | some rawCat =>
      rw [hch] at hcat
      simp only []
      rw [if_neg (by simpa using hcat)]
      simp [hname]

/-- Claim C9: for every entry sequence, an entry whose comment lacks a
parenthesized name and does not match a Loom category heading contributes
no item to either output sequence and does not change how the remaining
entries are converted — removing it yields the identical result. -/
theorem C9_unnamed_entry_dropped (pre post : List Entry) (e : Entry)
    (hname : firstParen (jsTrim (e.comment.getD [])) = none)
    (hcat : matchesLoomHeading (jsTrim (e.comment.getD [])) = false) :
    processEntries (pre ++ e :: post) = processEntries (pre ++ post) := by
  simp only [processEntries, List.foldl_append, List.foldl_cons]
  rw [processEntry_skip _ e hname hcat]

/-- Witness for C9 at a concrete entry with an unusable comment. -/
theorem C9_witness :
    processEntries
        [{ content := some "a".data, comment := some "(K) behavior".data,
           outletName := none },
         { content := some "b".data, comment := some "no name here".data,
           outletName := none }]
      = processEntries
        [{ content := some "a".data, comment := some "(K) behavior".data,
           outletName := none }] :=
  C9_unnamed_entry_dropped
    [{ content := some "a".data, comment := some "(K) behavior".data,
       outletName := none }]
    []
    { content := some "b".data, comment := some "no name here".data,
      outletName := none }
    (by decide) (by decide)

/-- Entry carrying the explicit behavior outlet while its comment contains
the keyword `definition`. -/
def c2entry : Entry :=
  { content := some "hello".data, comment := some "(X) definition".data,
    outletName := some "Lumia_Behavior".data }

/-- Claim C2 is false on the code: an entry with `outletName` equal to
`Lumia_Behavior` whose comment contains the substring `definition` is
classified as a definition fragment (its definition text is set and its
behavior text stays empty), because the keyword check for `definition` runs
before the `Lumia_Behavior` outlet check. -/
theorem C2_counterexample :
    c2entry.outletName = some behavOutlet
    ∧ jsIncludes ("definition".data) (lowerc (jsTrim (c2entry.comment.getD []))) = true
    ∧ (processEntries [c2entry]).lumiaItems.map
        (fun it => (it.lumiaName, it.lumiaDefinition, it.lumiaBehavior))
      = [(some "X".data, some "hello".data, none)] := by decide

/-- Claim C2 (amended): the outlet and keyword checks are interleaved per
type in the order definition, behavior, personality, so the keyword
`definition` in the comment takes priority over the explicit
`Lumia_Behavior` outlet: such an entry is processed as a definition
fragment. -/
theorem C2_amended_keyword_precedes_outlet
    (st : List LumiaItem × List LoomItem) (e : Entry) (content raw : Chars)
    (hcv : contentValid e = some content)
    (hkw : jsIncludes ("definition".data)
        (lowerc (jsTrim (e.comment.getD []))) = true)
    (hcat : matchesLoomHeading (jsTrim (e.comment.getD [])) = false)
    (hname : firstParen (jsTrim (e.comment.getD [])) = some raw) :
    processEntry st e
      = (applyLumia (jsTrim raw)
          (applyFrag content (some FragType.definition)) st.1, st.2) := by
  have hdet : determineType e.outletName (jsTrim (e.comment.getD [])) content
      = some FragType.definition := by
    simp only [determineType]
    rw [if_pos (Or.inr hkw)]
  simp only [processEntry]
  rw [hcv]
  simp only [matchesLoomHeading] at hcat
  cases hch : categoryHead (jsTrim (e.comment.getD [])) with
  | none => simp [hname, hdet]
  | some rawCat =>
    rw [hch] at hcat
    have hcat2 : ¬(jsTrim rawCat ∈ loomCats) := by simpa using hcat
    simp [hcat2, hname, hdet]

/-- Reduction of one entry-loop iteration for an entry with valid content,
no Loom heading and a parenthesized name. -/
theorem processEntry_lumia (st : List LumiaItem × List LoomItem) (e : Entry)
    (content raw : Chars)
    (hcv : contentValid e = some content)
    (hcat : matchesLoomHeading (jsTrim (e.comment.getD [])) = false)
    (hname : firstParen (jsTrim (e.comment.getD [])) = some raw) :
    processEntry st e
      = (applyLumia (jsTrim raw)
          (applyFrag content
            (determineType e.outletName (jsTrim (e.comment.getD [])) content))
          st.1,
         st.2) := by
  simp only [processEntry]
  rw [hcv]
  simp only [matchesLoomHeading] at hcat
  cases hch : categoryHead (jsTrim (e.comment.getD [])) with
  | none => simp [hname]
  | some rawCat =>
    rw [hch] at hcat
    have hcat2 : ¬(jsTrim rawCat ∈ loomCats) := by simpa using hcat
    simp [hcat2, hname]

/-- Witness for the amended C2 at the concrete counterexample entry. -/
theorem C2_witness :
    processEntry ([], []) c2entry
      = (applyLumia (jsTrim "X".data)
          (applyFrag ("hello".data) (some FragType.definition)) [], []) :=
  C2_amended_keyword_precedes_outlet ([], []) c2entry ("hello".data) ("X".data)
    (by decide) (by decide) (by decide) (by decide)

/-- Entry classified as a behavior fragment whose content carries
surrounding whitespace. -/
def c6entry : Entry :=
  { content := some " x ".data, comment := some "(A) behavior".data,
    outletName := none }

/-- Claim C6 is false on the code: the behavior branch stores the entry's
raw content verbatim, without trimming — at this entry the stored behavior
text keeps its surrounding whitespace, while the trimmed value differs. -/
theorem C6_counterexample :
    ((processEntries [c6entry]).lumiaItems.map (·.lumiaBehavior))
      = [some (" x ".data)]
    ∧ jsTrim (" x ".data) ≠ " x ".data := by decide

/-- Claim C6 (amended): for every entry classified as a behavior fragment,
the resulting item's behavior text equals the entry's raw content, not
trimmed; a later behavior fragment for the same name overwrites an earlier
one. -/
theorem C6_amended_behavior_raw_last_writer
    (cm c1 c2 raw : Chars) (outlet : Option Chars)
    (hc1 : c1 ≠ []) (hc2 : c2 ≠ [])
    (hcat : matchesLoomHeading (jsTrim cm) = false)
    (hname : firstParen (jsTrim cm) = some raw)
    (hdet1 : determineType outlet (jsTrim cm) c1 = some FragType.behavior)
    (hdet2 : determineType outlet (jsTrim cm) c2 = some FragType.behavior) :
    ((processEntries [⟨some c1, some cm, outlet⟩]).lumiaItems.map
        (·.lumiaBehavior) = [some c1])
    ∧ ((processEntries
          [⟨some c1, some cm, outlet⟩, ⟨some c2, some cm, outlet⟩]).lumiaItems.map
        (·.lumiaBehavior) = [some c2]) := by
  have hcv1 : contentValid ⟨some c1, some cm, outlet⟩ = some c1 := by
    simp [contentValid, hc1]
  have hcv2 : contentValid ⟨some c2, some cm, outlet⟩ = some c2 := by
    simp [contentValid, hc2]
  have h1 := processEntry_lumia ([], []) ⟨some c1, some cm, outlet⟩ c1 raw hcv1
    hcat hname
  have hst1 : processEntry ([], []) ⟨some c1, some cm, outlet⟩
      = ([{ lumiaName := some (jsTrim raw), avatarUrl := none,
            lumiaPersonality := none, lumiaBehavior := some c1,
            lumiaDefinition := none, authorName := none,
            genderIdentity := 0, version := 1 }], []) := by
    rw [h1]
    simp [hdet1, applyLumia, applyFrag, freshLumia]
  have h2 := processEntry_lumia
    ([{ lumiaName := some (jsTrim raw), avatarUrl := none,
        lumiaPersonality := none, lumiaBehavior := some c1,
        lumiaDefinition := none, authorName := none,
        genderIdentity := 0, version := 1 }], [])
    ⟨some c2, some cm, outlet⟩ c2 raw hcv2 hcat hname
  constructor
  · simp only [processEntries, List.foldl_cons, List.foldl_nil, hst1]
    simp
  · simp only [processEntries, List.foldl_cons, List.foldl_nil, hst1, h2]
    simp [hdet2, applyLumia, applyFrag]

/-- Witness for the amended C6 at two concrete behavior entries for the
same name. -/
theorem C6_witness :
    ((processEntries
        [⟨some (" x ".data), some ("(A) behavior".data), none⟩,
         ⟨some (" y ".data), some ("(A) behavior".data), none⟩]).lumiaItems.map
      (·.lumiaBehavior)) = [some (" y ".data)] :=
  (C6_amended_behavior_raw_last_writer ("(A) behavior".data) (" x ".data)
    (" y ".data) ("A".data) none (by decide) (by decide) (by decide)
    (by decide) (by decide) (by decide)).2

/-- Every value `convertPack` produces passes the canonical-shape check. -/
theorem convertPack_output_canonical (d : InputData) (n : Chars)
    (r : InputData) (h : convertPack d n = .ok r) :
    hasCanonicalShape r = true := by
  simp only [convertPack] at h
  by_cases h1 : hasCanonicalShape d = true
  · simp only [h1, if_true] at h
    cases h
    exact h1
  · simp only [h1, Bool.false_eq_true, if_false] at h
    by_cases h2 : hasWorldBookShape d = true
    · simp only [h2, if_true] at h
      cases h
      simp [wbOutput, hasCanonicalShape]
    · simp only [h2, Bool.false_eq_true, if_false] at h
      cases d with
      | arr es => simp [hasWorldBookShape] at h2
      | obj o =>
        simp only [] at h
        cases hi : o.items with
        | some its =>
          rw [hi] at h
          cases h
          simp [legacyOutput, hasCanonicalShape]
        | none =>
          rw [hi] at h
          cases h

/-- Claim C3: conversion is idempotent — a payload that already exposes a
`lumiaItems` or `loomItems` field is returned unchanged, and re-converting
any successful conversion result returns it unchanged in every field. -/
theorem C3_convertPack_idempotent :
    (∀ (d : InputData) (n : Chars),
      hasCanonicalShape d = true → convertPack d n = .ok d)
    ∧ (∀ (d : InputData) (n : Chars) (r : InputData),
      convertPack d n = .ok r → convertPack r n = .ok r) := by
  constructor
  · intro d n h
    simp [convertPack, h]
  · intro d n r h
    have hc := convertPack_output_canonical d n r h
    simp [convertPack, hc]

/-- Witness for C3: a concrete canonical payload is passed through, and the
conversion of a concrete World Book payload is a fixed point. -/
theorem C3_witness :
    convertPack
        (.obj { lumiaItems := some [], loomItems := none, entries := none,
                items := none, name := none, packName := none, author := none,
                packAuthor := none, coverUrl := none, packExtras := none,
                version := none }) ("n".data)
      = .ok (.obj { lumiaItems := some [], loomItems := none, entries := none,
                    items := none, name := none, packName := none,
                    author := none, packAuthor := none, coverUrl := none,
                    packExtras := none, version := none })
    ∧ convertPack (wbOutput (.arr []) ("n".data)) ("n".data)
      = .ok (wbOutput (.arr []) ("n".data)) :=
  ⟨C3_convertPack_idempotent.1 _ _ (by decide),
   C3_convertPack_idempotent.2 (.arr []) ("n".data) _ rfl⟩

/-- Claim C8: the shape checks run in the order canonical pack, World Book
collection, older internal pack; a payload matching none of them fails with
the unsupported-format error and no pack is produced. -/
theorem C8_shape_dispatch_order :
    (∀ (d : InputData) (n : Chars),
      hasCanonicalShape d = false → hasWorldBookShape d = false →
      hasItemsShape d = false →
      convertPack d n = .error unknownFormatMsg)
    ∧ (∀ (d : InputData) (n : Chars),
      hasCanonicalShape d = true → convertPack d n = .ok d)
    ∧ (∀ (d : InputData) (n : Chars),
      hasCanonicalShape d = false → hasWorldBookShape d = true →
      convertPack d n = .ok (wbOutput d n))
    ∧ (∀ (o : ObjData) (n : Chars) (its : List OldItem),
      hasCanonicalShape (.obj o) = false →
      hasWorldBookShape (.obj o) = false → o.items = some its →
      convertPack (.obj o) n = .ok (legacyOutput o n its)) := by
  refine ⟨?_, ?_, ?_, ?_⟩
  · intro d n h1 h2 h3
    cases d with
    | arr es => simp [hasWorldBookShape] at h2
    | obj o =>
      have hi : o.items = none := by
        cases hi : o.items with
        | none => rfl
        | some _ => simp [hasItemsShape, hi] at h3
      simp [convertPack, h1, h2, hi]
  · intro d n h
    simp [convertPack, h]
  · intro d n h1 h2
    simp [convertPack, h1, h2]
  · intro o n its h1 h2 hi
    simp [convertPack, h1, h2, hi]

/-- Witness for C8: a concrete object payload with none of the recognized
fields yields the unsupported-format error. -/
theorem C8_witness :
    convertPack
        (.obj { lumiaItems := none, loomItems := none, entries := none,
                items := none, name := none, packName := none, author := none,
                packAuthor := none, coverUrl := none, packExtras := none,
                version := none }) ("p".data)
      = .error unknownFormatMsg :=
  C8_shape_dispatch_order.1 _ _ (by decide) (by decide) (by decide)

/-- Unfolding of `migrateSettings` when the guard fires and at least one
item is derived. -/
theorem migrateSettings_shape (s : Settings)
    (hguard : (s.lumiaLibrary.isSome ∨ s.worldBookData.isSome) ∧ s.packs = [])
    (hne : derivedItems s ≠ []) :
    migrateSettings s
      = (ensureDefaults
          { s with
            packs := setPack s.packs legacyLabel
              { name := legacyLabel, items := derivedItems s,
                url := match s.worldBookUrl with
                       | some u => if u = [] then "Legacy".data else u
                       | none => "Legacy".data },
            selectedDefinition :=
              migrateSelDef (derivedItems s) s.selectedDefinition,
            selectedBehaviors :=
              some (migrateMulti (derivedItems s) s.selectedBehaviors),
            selectedPersonalities :=
              some (migrateMulti (derivedItems s) s.selectedPersonalities),
            lumiaLibrary := none, worldBookData := none, worldBookUrl := none },
         true) := by
  simp only [migrateSettings]
  rw [if_pos hguard, if_neg hne]

/-- A settings state on which the migration guard fires but zero items are
derived: an empty legacy flat list and no raw payload. -/
def c1state : Settings :=
  { packs := [], selectedDefinition := SelDef.nul, selectedBehaviors := some [],
    selectedPersonalities := some [], lumiaOOCInterval := none,
    lumiaLibrary := some [], worldBookData := none,
    worldBookUrl := some ("http://example".data) }

/-- Claim C1 is false on the code: when the guard fires but the migration
derives zero items, the legacy keys are NOT deleted — here the flat item
list and the recorded source URL both survive the pass. -/
theorem C1_counterexample :
    (c1state.lumiaLibrary.isSome ∨ c1state.worldBookData.isSome)
    ∧ c1state.packs = []
    ∧ (migrateSettings c1state).1.lumiaLibrary = some []
    ∧ (migrateSettings c1state).1.worldBookUrl = some ("http://example".data) := by
  decide

/-- Claim C1 (amended): when the migration guard fires AND the pass derives
at least one item, all three legacy top-level keys are deleted (and the
pass reports a migration); when zero items are derived the legacy keys are
retained. -/
theorem C1_amended_legacy_keys_deleted (s : Settings)
    (hguard : (s.lumiaLibrary.isSome ∨ s.worldBookData.isSome) ∧ s.packs = [])
    (hitems : derivedItems s ≠ []) :
    (migrateSettings s).1.lumiaLibrary = none
    ∧ (migrateSettings s).1.worldBookData = none
    ∧ (migrateSettings s).1.worldBookUrl = none
    ∧ (migrateSettings s).2 = true := by
  rw [migrateSettings_shape s hguard hitems]
  simp [ensureDefaults]

/-- A settings state with one named legacy item and legacy selections. -/
def c1wstate : Settings :=
  { packs := [], selectedDefinition := SelDef.num 0,
    selectedBehaviors := some [], selectedPersonalities := some [],
    lumiaOOCInterval := none,
    lumiaLibrary := some
      [{ lumiaDefName := some ("A".data), lumia_img := none,
         lumia_personality := none, lumia_behavior := none,
         lumiaDef := none, defAuthor := none }],
    worldBookData := none, worldBookUrl := some ("u".data) }

/-- Witness for the amended C1 at a concrete one-item migration. -/
theorem C1_witness :
    (migrateSettings c1wstate).1.lumiaLibrary = none
    ∧ (migrateSettings c1wstate).1.worldBookData = none
    ∧ (migrateSettings c1wstate).1.worldBookUrl = none
    ∧ (migrateSettings c1wstate).2 = true :=
  C1_amended_legacy_keys_deleted c1wstate (by decide) (by decide)

/-- Claim C4: selection migration translates a legacy numeric index to a
pack/item reference when the index resolves to a named item and to null
otherwise (out of range, or unnamed item), never throwing; multi-selection
index sequences migrate element-wise under the same rule with unresolved
indices silently omitted. -/
theorem C4_selection_index_migration (s : Settings) (L : List LegacyItem)
    (hguard : (s.lumiaLibrary.isSome ∨ s.worldBookData.isSome) ∧ s.packs = [])
    (hL : derivedItems s = L) (hne : L ≠ []) :
    (∀ (i : Int) (nm : Chars), s.selectedDefinition = SelDef.num i →
      getNameAt L i = some nm → nm ≠ [] →
      (migrateSettings s).1.selectedDefinition = SelDef.ref legacyLabel nm)
    ∧ (∀ (i : Int), s.selectedDefinition = SelDef.num i →
      (getNameAt L i = none ∨ getNameAt L i = some []) →
      (migrateSettings s).1.selectedDefinition = SelDef.nul)
    ∧ (∀ (i0 : Int) (rest : List SelElem),
      s.selectedBehaviors = some (SelElem.num i0 :: rest) →
      (migrateSettings s).1.selectedBehaviors
        = some ((SelElem.num i0 :: rest).filterMap fun x =>
            match x with
            | SelElem.num j =>
              match getNameAt L j with
              | some nm =>
                if nm = [] then none else some (SelElem.ref legacyLabel nm)
              | none => none
            | SelElem.ref _ _ => none))
    ∧ (∀ (i0 : Int) (rest : List SelElem),
      s.selectedPersonalities = some (SelElem.num i0 :: rest) →
      (migrateSettings s).1.selectedPersonalities
        = some ((SelElem.num i0 :: rest).filterMap fun x =>
            match x with
            | SelElem.num j =>
              match getNameAt L j with
              | some nm =>
                if nm = [] then none else some (SelElem.ref legacyLabel nm)
              | none => none
            | SelElem.ref _ _ => none)) := by
  have hstep := migrateSettings_shape s hguard (hL ▸ hne)
  rw [hL] at hstep
  refine ⟨?_, ?_, ?_, ?_⟩
  · intro i nm hsel hget hnm
    rw [hstep]
    simp only [ensureDefaults]
    rw [hsel]
    simp [migrateSelDef, hget, hnm]
  · intro i hsel hget
    rw [hstep]
    simp only [ensureDefaults]
    rw [hsel]
    rcases hget with hget | hget <;> simp [migrateSelDef, hget]
  · intro i0 rest hsb
    rw [hstep]
    simp only [ensureDefaults]
    rw [hsb]
    simp [migrateMulti]
  · intro i0 rest hsp
    rw [hstep]
    simp only [ensureDefaults]
    rw [hsp]
    simp [migrateMulti]

/-- Settings with a five-item legacy list, an out-of-range single
selection and a multi-selection of indices. -/
def c4state : Settings :=
  { packs := [], selectedDefinition := SelDef.num 99,
    selectedBehaviors := some [SelElem.num 0, SelElem.num 99, SelElem.num 2],
    selectedPersonalities := some [], lumiaOOCInterval := none,
    lumiaLibrary := some
      [{ lumiaDefName := some ("A".data), lumia_img := none,
         lumia_personality := none, lumia_behavior := none,
         lumiaDef := none, defAuthor := none },
       { lumiaDefName := some ("B".data), lumia_img := none,
         lumia_personality := none, lumia_behavior := none,
         lumiaDef := none, defAuthor := none },
       { lumiaDefName := some ("C".data), lumia_img := none,
         lumia_personality := none, lumia_behavior := none,
         lumiaDef := none, defAuthor := none },
       { lumiaDefName := some ("D".data), lumia_img := none,
         lumia_personality := none, lumia_behavior := none,
         lumiaDef := none, defAuthor := none },
       { lumiaDefName := some ("E".data), lumia_img := none,
         lumia_personality := none, lumia_behavior := none,
         lumiaDef := none, defAuthor := none }],
    worldBookData := none, worldBookUrl := none }

/-- Witness for C4: index 99 over a five-element list migrates to null,
and the index sequence [0, 99, 2] migrates to the two resolvable
references with the dangling index omitted. -/
theorem C4_witness :
    (migrateSettings c4state).1.selectedDefinition = SelDef.nul
    ∧ (migrateSettings c4state).1.selectedBehaviors
        = some [SelElem.ref legacyLabel ("A".data),
                SelElem.ref legacyLabel ("C".data)] := by
  have h := C4_selection_index_migration c4state
    (c4state.lumiaLibrary.getD []) (by decide) (by decide) (by decide)
  exact ⟨h.2.1 99 (by decide) (by decide),
         (h.2.2.1 0 [SelElem.num 99, SelElem.num 2] (by decide)).trans
           (by decide)⟩

/-- Claim C10: during legacy migration, a multi-selection list that is not
in numeric-index form — empty, or headed by a non-numeric element — is
unconditionally reset to the empty sequence, discarding any name-based
selection objects it contained. -/
theorem C10_nonnumeric_multi_reset (s : Settings)
    (hguard : (s.lumiaLibrary.isSome ∨ s.worldBookData.isSome) ∧ s.packs = [])
    (hitems : derivedItems s ≠ []) :
    (∀ l, s.selectedBehaviors = some l →
      (l = [] ∨ ∃ p q r, l = SelElem.ref p q :: r) →
      (migrateSettings s).1.selectedBehaviors = some [])
    ∧ (∀ l, s.selectedPersonalities = some l →
      (l = [] ∨ ∃ p q r, l = SelElem.ref p q :: r) →
      (migrateSettings s).1.selectedPersonalities = some []) := by
  have hstep := migrateSettings_shape s hguard hitems
  constructor
  · intro l hsb hshape
    rw [hstep]
    simp only [ensureDefaults]
    rw [hsb]
    rcases hshape with rfl | ⟨p, q, r, rfl⟩ <;> simp [migrateMulti]
  · intro l hsp hshape
    rw [hstep]
    simp only [ensureDefaults]
    rw [hsp]
    rcases hshape with rfl | ⟨p, q, r, rfl⟩ <;> simp [migrateMulti]

/-- Settings whose behavior multi-selection is already name-based and whose
personality multi-selection is empty. -/
def c10state : Settings :=
  { packs := [], selectedDefinition := SelDef.nul,
    selectedBehaviors := some [SelElem.ref ("P".data) ("I".data)],
    selectedPersonalities := some [], lumiaOOCInterval := none,
    lumiaLibrary := some
      [{ lumiaDefName := some ("A".data), lumia_img := none,
         lumia_personality := none, lumia_behavior := none,
         lumiaDef := none, defAuthor := none }],
    worldBookData := none, worldBookUrl := none }

/-- Witness for C10: the name-based behavior selection is discarded. -/
theorem C10_witness :
    (migrateSettings c10state).1.selectedBehaviors = some []
    ∧ (migrateSettings c10state).1.selectedPersonalities = some [] := by
  have h := C10_nonnumeric_multi_reset c10state (by decide) (by decide)
  exact ⟨h.1 _ rfl (Or.inr ⟨_, _, _, rfl⟩), h.2 _ rfl (Or.inl rfl)⟩

/-! ## Lemmas: the tag matcher splits the text at its leftmost match -/

theorem takeUntilRB_eq (t : Chars) (cap rest : Chars)
    (h : takeUntilRB t = some (cap, rest)) :
    t = cap ++ rbChar :: rest ∧ rbChar ∉ cap := by
  induction t generalizing cap rest with
  | nil => simp [takeUntilRB] at h
  | cons c cs ih =>
    simp only [takeUntilRB] at h
    by_cases hc : c = rbChar
    · rw [if_pos hc] at h
      simp only [Option.some.injEq, Prod.mk.injEq] at h
      obtain ⟨h1, h2⟩ := h
      subst h1; subst h2
      simp [hc]
    · rw [if_neg hc] at h
      cases hrec : takeUntilRB cs with
      | none => rw [hrec] at h; cases h
      | some p =>
        obtain ⟨cap', rest'⟩ := p
        rw [hrec] at h
        simp only [Option.some.injEq, Prod.mk.injEq] at h
        obtain ⟨h1, h2⟩ := h
        subst h1; subst h2
        obtain ⟨ih1, ih2⟩ := ih cap' rest' hrec
        refine ⟨by rw [ih1]; rfl, ?_⟩
        simp only [List.mem_cons]
        rintro (he | he)
        · exact hc he.symm
        · exact ih2 he

theorem takeUntilRB_of (cap rest : Chars) (h : rbChar ∉ cap) :
    takeUntilRB (cap ++ rbChar :: rest) = some (cap, rest) := by
  induction cap with
  | nil => simp [takeUntilRB]
  | cons c cs ih =>
    have hc : ¬(c = rbChar) := by
      intro e
      exact h (by simp [e])
    have h2 : rbChar ∉ cs := fun hm => h (List.mem_cons_of_mem _ hm)
    simp [takeUntilRB, hc, ih h2]

theorem tagAttempt_eq (opn s cap suf : Chars)
    (h : tagAttempt opn s = some (cap, suf)) :
    s = opn ++ cap ++ rbChar :: suf ∧ cap ≠ [] ∧ rbChar ∉ cap := by
  simp only [tagAttempt] at h
  split at h
  · rename_i hp
    split at h
    · rename_i cap1 suf1 hrec
      split at h
      · cases h
      · rename_i hcap
        simp only [Option.some.injEq, Prod.mk.injEq] at h
        obtain ⟨h1, h2⟩ := h
        rw [← h1, ← h2]
        obtain ⟨t, ht⟩ := List.isPrefixOf_iff_prefix.mp hp
        have hdrop : s.drop opn.length = t := by
          rw [← ht]; exact List.drop_left opn t
        rw [hdrop] at hrec
        obtain ⟨e1, e2⟩ := takeUntilRB_eq t cap1 suf1 hrec
        refine ⟨?_, hcap, e2⟩
        rw [← ht, e1, List.append_assoc]
    · cases h
  · cases h

theorem tagAttempt_of (opn cap suf : Chars) (hcap : cap ≠ [])
    (hnotin : rbChar ∉ cap) :
    tagAttempt opn (opn ++ cap ++ rbChar :: suf) = some (cap, suf) := by
  have hp : opn.isPrefixOf (opn ++ cap ++ rbChar :: suf) = true :=
    List.isPrefixOf_iff_prefix.mpr ⟨cap ++ rbChar :: suf, by simp⟩
  have hdrop : (opn ++ cap ++ rbChar :: suf).drop opn.length
      = cap ++ rbChar :: suf := by
    rw [List.append_assoc]; exact List.drop_left opn _
  simp only [tagAttempt, hp, if_true, hdrop, takeUntilRB_of cap suf hnotin]
  simp [hcap]

theorem findTag_eq (opn content pre cap suf : Chars)
    (h : findTag opn content = some (pre, cap, suf)) :
    content = pre ++ opn ++ cap ++ rbChar :: suf ∧ cap ≠ [] ∧ rbChar ∉ cap := by
  induction content generalizing pre cap suf with
  | nil => simp [findTag] at h
  | cons c cs ih =>
    simp only [findTag] at h
    split at h
    · rename_i cap1 suf1 ha
      simp only [Option.some.injEq, Prod.mk.injEq] at h
      obtain ⟨h1, h2, h3⟩ := h
      rw [← h1, ← h2, ← h3]
      obtain ⟨e1, e2, e3⟩ := tagAttempt_eq opn (c :: cs) cap1 suf1 ha
      exact ⟨by rw [e1]; rfl, e2, e3⟩
    · rename_i ha
      cases hrec : findTag opn cs with
      | none => rw [hrec] at h; cases h
      | some q =>
        obtain ⟨pre1, cap1, suf1⟩ := q
        rw [hrec] at h
        simp only [Option.map_some', Option.some.injEq, Prod.mk.injEq] at h
        obtain ⟨h1, h2, h3⟩ := h
        rw [← h1, ← h2, ← h3]
        obtain ⟨e1, e2, e3⟩ := ih pre1 cap1 suf1 hrec
        refine ⟨?_, e2, e3⟩
        simp only [List.cons_append]
        rw [← e1]

theorem removeFirst_findTag (opn content pre cap suf : Chars)
    (h : findTag opn content = some (pre, cap, suf)) :
    removeFirst (opn ++ cap ++ [rbChar]) content = pre ++ suf := by
  induction content generalizing pre cap suf with
  | nil => simp [findTag] at h
  | cons c cs ih =>
    simp only [findTag] at h
    split at h
    · rename_i cap1 suf1 ha
      simp only [Option.some.injEq, Prod.mk.injEq] at h
      obtain ⟨h1, h2, h3⟩ := h
      rw [← h1, ← h2, ← h3]
      obtain ⟨e1, e2, e3⟩ := tagAttempt_eq opn (c :: cs) cap1 suf1 ha
      have he : c :: cs = (opn ++ cap1 ++ [rbChar]) ++ suf1 := by
        rw [e1]; simp
      have hp : (opn ++ cap1 ++ [rbChar]).isPrefixOf (c :: cs) = true :=
        List.isPrefixOf_iff_prefix.mpr ⟨suf1, he.symm⟩
      simp only [removeFirst, hp, if_true]
      rw [he, List.drop_left]
      rfl
    · rename_i ha
      cases hrec : findTag opn cs with
      | none => rw [hrec] at h; cases h
      | some q =>
        obtain ⟨pre1, cap1, suf1⟩ := q
        rw [hrec] at h
        simp only [Option.map_some', Option.some.injEq, Prod.mk.injEq] at h
        obtain ⟨h1, h2, h3⟩ := h
        rw [← h1, ← h2, ← h3]
        obtain ⟨e1, e2, e3⟩ := findTag_eq opn cs pre1 cap1 suf1 hrec
        have hnp : ¬((opn ++ cap1 ++ [rbChar]).isPrefixOf (c :: cs) = true) := by
          intro hp
          obtain ⟨t, ht⟩ := List.isPrefixOf_iff_prefix.mp hp
          have hform : c :: cs = opn ++ cap1 ++ rbChar :: t := by
            rw [← ht]; simp
          have hat : tagAttempt opn (c :: cs) = some (cap1, t) := by
            rw [hform]; exact tagAttempt_of opn cap1 t e2 e3
          rw [ha] at hat; cases hat
        simp only [removeFirst, hnp, if_false]
        rw [ih pre1 cap1 suf1 hrec]
        rfl

/-! ## Lemmas: a non-whitespace-delimited infix survives trimming -/

theorem infix_dropWhile_of_head (t s : Chars) (c : Char) (t' : Chars)
    (ht : t = c :: t') (hc : isWS c = false) (h : t <:+: s) :
    t <:+: s.dropWhile isWS := by
  induction s with
  | nil =>
    rw [List.infix_nil] at h
    rw [h] at ht
    cases ht
  | cons x s' ih =>
    rw [List.dropWhile_cons]
    by_cases hx : isWS x = true
    · rw [if_pos hx]
      rcases List.infix_cons_iff.mp h with hpre | hinf
      · obtain ⟨r, hr⟩ := hpre
        rw [ht] at hr
        injection hr with h1 h2
        rw [h1, hx] at hc
        cases hc
      · exact ih hinf
    · rw [if_neg hx]
      exact h

theorem infix_jsTrim (t s : Chars) (c : Char) (t' : Chars) (lc : Char)
    (ht : t = c :: t') (hc : isWS c = false)
    (hl : t.getLast? = some lc) (hlc : isWS lc = false)
    (h : t <:+: s) : t <:+: jsTrim s := by
  have h1 : t <:+: s.dropWhile isWS := infix_dropWhile_of_head t s c t' ht hc h
  have h2 : t.reverse <:+: (s.dropWhile isWS).reverse :=
    List.reverse_infix.mpr h1
  have h3 : t.reverse.head? = some lc := by rw [List.head?_reverse, hl]
  obtain ⟨tr', htr⟩ : ∃ tr', t.reverse = lc :: tr' := by
    cases htr : t.reverse with
    | nil => rw [htr] at h3; cases h3
    | cons a b =>
      rw [htr] at h3
      simp only [List.head?_cons, Option.some.injEq] at h3
      exact ⟨b, by rw [h3]⟩
  have h4 : t.reverse <:+: ((s.dropWhile isWS).reverse).dropWhile isWS :=
    infix_dropWhile_of_head _ _ lc tr' htr hlc h2
  have h5 : t.reverse
      <:+: ((((s.dropWhile isWS).reverse).dropWhile isWS).reverse).reverse := by
    rw [List.reverse_reverse]; exact h4
  have h6 := List.reverse_infix.mp h5
  simpa [jsTrim] using h6

/-- Claim C7 is false on the code at two concrete inputs.  On
`[lumia_img=[lumia_img=a]` the leftmost match of the image-tag pattern is
the whole string (capture `[lumia_img=a`), its removal empties the text,
and the additional occurrence `[lumia_img=a]` nested inside it is
destroyed rather than left untouched in the cleaned text.  On
`Z[lumia_autho[lumia_img=q]r=b]XYZ[lumia_author=b]W` the first (and only)
author-tag occurrence is NOT removed: removing the image match splices the
surrounding text into an earlier junction-formed copy of the author match
string `[lumia_author=b]`, the replace deletes that copy, and the original
author match survives intact in the cleaned text, which is
`ZXYZ[lumia_author=b]W` instead of the `Z[lumia_author=b]XYZW` the claim
demands. -/
theorem C7_counterexample :
    (findTag imgOpen ("[lumia_img=[lumia_img=a]".data)
      = some ([], "[lumia_img=a".data, [])
    ∧ ("[lumia_img=a]".data) <:+: ("[lumia_img=[lumia_img=a]".data)
    ∧ (extractMetadata ("[lumia_img=[lumia_img=a]".data)).content = []
    ∧ ¬(("[lumia_img=a]".data)
        <:+: (extractMetadata ("[lumia_img=[lumia_img=a]".data)).content))
    ∧ (findTag authOpen
        ("Z[lumia_autho[lumia_img=q]r=b]XYZ[lumia_author=b]W".data)
      = some ("Z[lumia_autho[lumia_img=q]r=b]XYZ".data, "b".data, "W".data)
    ∧ (extractMetadata
        ("Z[lumia_autho[lumia_img=q]r=b]XYZ[lumia_author=b]W".data)).content
      = "ZXYZ[lumia_author=b]W".data
    ∧ ("[lumia_author=b]".data)
        <:+: (extractMetadata
          ("Z[lumia_autho[lumia_img=q]r=b]XYZ[lumia_author=b]W".data)).content
    ∧ (extractMetadata
        ("Z[lumia_autho[lumia_img=q]r=b]XYZ[lumia_author=b]W".data)).content
      ≠ "Z[lumia_author=b]XYZW".data) := by
  decide

/-- Claim C7 (amended): each tag kind is located by a single leftmost
pattern match against the ORIGINAL input; the captured values are returned
trimmed (none when the pattern has no match) and the extractor is a total
function.  The cleaned text is obtained by removing the image match exactly
at its match position (with trimming), then deleting the FIRST OCCURRENCE
of the author match's text from that intermediate — when the image removal
splices the surrounding text into an earlier copy of the author match's
text, that junction copy is deleted and the original author match survives
(second counterexample input).  When a tag kind has no match nothing of
that kind is removed, and with no match of either kind the input is
returned verbatim.  An additional occurrence of the image tag lying after
the removed image match is left untouched (up to end-trimming) provided no
author tag is matched, and symmetrically for the author tag; an occurrence
nested inside or overlapping a removed span may be destroyed (first
counterexample input). -/
theorem C7_amended_first_occurrence_extraction :
    (∀ content pre cap suf,
      findTag imgOpen content = some (pre, cap, suf) →
      (extractMetadata content).image = some (jsTrim cap))
    ∧ (∀ content, findTag imgOpen content = none →
      (extractMetadata content).image = none)
    ∧ (∀ content pre cap suf,
      findTag authOpen content = some (pre, cap, suf) →
      (extractMetadata content).author = some (jsTrim cap))
    ∧ (∀ content, findTag authOpen content = none →
      (extractMetadata content).author = none)
    ∧ (∀ content pre cap suf,
      findTag imgOpen content = some (pre, cap, suf) →
      findTag authOpen content = none →
      (extractMetadata content).content = jsTrim (pre ++ suf))
    ∧ (∀ content preI capI sufI preA capA sufA,
      findTag imgOpen content = some (preI, capI, sufI) →
      findTag authOpen content = some (preA, capA, sufA) →
      (extractMetadata content).content
        = jsTrim (removeFirst (authOpen ++ capA ++ [rbChar])
            (jsTrim (preI ++ sufI))))
    ∧ (∀ content pre cap suf,
      findTag imgOpen content = none →
      findTag authOpen content = some (pre, cap, suf) →
      (extractMetadata content).content = jsTrim (pre ++ suf))
    ∧ (∀ content,
      findTag imgOpen content = none →
      findTag authOpen content = none →
      (extractMetadata content).content = content)
    ∧ (∀ content pre cap suf c2,
      findTag imgOpen content = some (pre, cap, suf) →
      findTag authOpen content = none →
      (imgOpen ++ c2 ++ [rbChar]) <:+: suf →
      (imgOpen ++ c2 ++ [rbChar]) <:+: (extractMetadata content).content)
    ∧ (∀ content pre cap suf a2,
      findTag imgOpen content = none →
      findTag authOpen content = some (pre, cap, suf) →
      (authOpen ++ a2 ++ [rbChar]) <:+: suf →
      (authOpen ++ a2 ++ [rbChar]) <:+: (extractMetadata content).content) := by
  refine ⟨?_, ?_, ?_, ?_, ?_, ?_, ?_, ?_, ?_, ?_⟩
  · intro content pre cap suf h
    cases hA : findTag authOpen content with
    | none => simp [extractMetadata, h, hA]
    | some q =>
      obtain ⟨qa, qb, qc⟩ := q
      simp [extractMetadata, h, hA]
  · intro content h
    cases hA : findTag authOpen content with
    | none => simp [extractMetadata, h, hA]
    | some q =>
      obtain ⟨qa, qb, qc⟩ := q
      simp [extractMetadata, h, hA]
  · intro content pre cap suf h
    cases hI : findTag imgOpen content with
    | none => simp [extractMetadata, h, hI]
    | some q =>
      obtain ⟨qa, qb, qc⟩ := q
      simp [extractMetadata, h, hI]
  · intro content h
    cases hI : findTag imgOpen content with
    | none => simp [extractMetadata, h, hI]
    | some q =>
      obtain ⟨qa, qb, qc⟩ := q
      simp [extractMetadata, h, hI]
  · intro content pre cap suf h hA
    have hr := removeFirst_findTag imgOpen content pre cap suf h
    simp only [extractMetadata, h, hA]
    rw [hr]
  · intro content preI capI sufI preA capA sufA hI hA
    have hr := removeFirst_findTag imgOpen content preI capI sufI hI
    simp only [extractMetadata, hI, hA]
    rw [hr]
  · intro content pre cap suf hI hA
    have hr := removeFirst_findTag authOpen content pre cap suf hA
    simp only [extractMetadata, hI, hA]
    rw [hr]
  · intro content hI hA
    simp [extractMetadata, hI, hA]
  · intro content pre cap suf c2 h hA hinf
    have hr := removeFirst_findTag imgOpen content pre cap suf h
    have hcontent : (extractMetadata content).content = jsTrim (pre ++ suf) := by
      simp only [extractMetadata, h, hA]
      rw [hr]
    rw [hcontent]
    have hinf2 : (imgOpen ++ c2 ++ [rbChar]) <:+: pre ++ suf :=
      hinf.trans ( List.IsSuffix.isInfix (List.suffix_append pre suf))
    exact infix_jsTrim (imgOpen ++ c2 ++ [rbChar]) (pre ++ suf) '['
      ("lumia_img=".data ++ c2 ++ [rbChar]) rbChar rfl (by decide)
      (List.getLast?_concat _) (by decide) hinf2
  · intro content pre cap suf a2 hI h hinf
    have hr := removeFirst_findTag authOpen content pre cap suf h
    have hcontent : (extractMetadata content).content = jsTrim (pre ++ suf) := by
      simp only [extractMetadata, h, hI]
      rw [hr]
    rw [hcontent]
    have hinf2 : (authOpen ++ a2 ++ [rbChar]) <:+: pre ++ suf :=
      hinf.trans ( List.IsSuffix.isInfix (List.suffix_append pre suf))
    exact infix_jsTrim (authOpen ++ a2 ++ [rbChar]) (pre ++ suf) '['
      ("lumia_author=".data ++ a2 ++ [rbChar]) rbChar rfl (by decide)
      (List.getLast?_concat _) (by decide) hinf2

/-- Witness for the amended C7: in `[lumia_img=a] x [lumia_img=b]` the
first tag is removed, the captured value is `a`, and the second tag
survives in the cleaned text; in the spec's own both-tag shape
`A. [lumia_img=u] B [lumia_author=bob] C` the characterization of the
cleaned text evaluates to `A.  B  C`. -/
theorem C7_witness :
    (extractMetadata ("[lumia_img=a] x [lumia_img=b]".data)).image
      = some ("a".data)
    ∧ (imgOpen ++ "b".data ++ [rbChar])
      <:+: (extractMetadata ("[lumia_img=a] x [lumia_img=b]".data)).content
    ∧ (extractMetadata
        ("A. [lumia_img=u] B [lumia_author=bob] C".data)).content
      = "A.  B  C".data :=
  ⟨C7_amended_first_occurrence_extraction.1 _ [] ("a".data)
      (" x [lumia_img=b]".data) (by decide),
   C7_amended_first_occurrence_extraction.2.2.2.2.2.2.2.2.1 _ [] ("a".data)
      (" x [lumia_img=b]".data) ("b".data) (by decide) (by decide)
      (by decide),
   (C7_amended_first_occurrence_extraction.2.2.2.2.2.1 _ ("A. ".data)
      ("u".data) (" B [lumia_author=bob] C".data)
      ("A. [lumia_img=u] B ".data) ("bob".data) (" C".data)
      (by decide) (by decide)).trans (by decide)⟩

end Lumiverse
